import Mathlib

/-!
Verification development for the kouhia work-hour ledger.

The persisted store is modelled shallowly: the `hours` table is a list of
entries, the `undolog` table a list of undo records.  SQLite `REAL`
computations (the `TOTAL` aggregate and the per-row `f64` reads of
`tail_date`) are modelled by exact rationals rounded to the nearest
IEEE-754 binary64 value after every operation.  Dates are modelled as
naturals: the stored `YYYY-MM-DD` strings compare lexicographically,
which agrees with chronological (hence numeric) order.
-/

namespace Kouhia

/-- Exact rational addition, written with `Rat.divInt` so that concrete
instances reduce by kernel computation; `qadd_eq_add` below shows it is
ordinary addition on `ℚ`. -/
def qadd (a b : ℚ) : ℚ :=
  Rat.divInt (a.num * (b.den : ℤ) + b.num * (a.den : ℤ)) ((a.den : ℤ) * (b.den : ℤ))

/-- Round a rational to the nearest integer, ties to even.  The
comparisons of the fractional part with `1/2` are phrased as integer
comparisons of `2 * num` with `(2 * floor + 1) * den`. -/
def roundHalfEven (q : ℚ) : ℤ :=
  let f := q.floor
  if 2 * q.num < (2 * f + 1) * (q.den : ℤ) then f
  else if (2 * f + 1) * (q.den : ℤ) < 2 * q.num then f + 1
  else if f % 2 = 0 then f else f + 1

/-- Halve a rational until it drops below `2`, counting the doublings. -/
def findExpDown : Nat → ℚ → ℤ → ℤ
  | 0, _, e => e
  | fuel + 1, q, e =>
    if q < 2 then e else findExpDown fuel (Rat.divInt q.num (2 * (q.den : ℤ))) (e + 1)

/-- Double a rational until it reaches `1`, counting the halvings. -/
def findExpUp : Nat → ℚ → ℤ → ℤ
  | 0, _, e => e
  | fuel + 1, q, e =>
    if 1 ≤ q then e else findExpUp fuel (Rat.divInt (2 * q.num) (q.den : ℤ)) (e - 1)

/-- Binary exponent of a positive rational in the binary64 range: the
`e` with `2 ^ e ≤ q < 2 ^ (e + 1)`.  The fuel `2200` covers the whole
binary64 exponent range. -/
def binExp (q : ℚ) : ℤ :=
  if 1 ≤ q then findExpDown 2200 q 0 else findExpUp 2200 q 0

/-- Value of the IEEE-754 binary64 number nearest to `q` (round to
nearest, ties to even), as an exact rational.  This models the value a
stored decimal amount takes once SQLite reads it as a `REAL`.
Multiplication and division by powers of two are written on the
numerator and denominator directly so that concrete instances reduce. -/
def roundF64 (q : ℚ) : ℚ :=
  if q = 0 then 0
  else
    let e : ℤ := binExp (if q < 0 then Rat.divInt (-q.num) (q.den : ℤ) else q) - 52
    let m : ℤ := roundHalfEven
      (Rat.divInt (q.num * 2 ^ (max (-e) 0).toNat) ((q.den : ℤ) * 2 ^ (max e 0).toNat))
    Rat.divInt (m * 2 ^ (max e 0).toNat) (2 ^ (max (-e) 0).toNat)

/-- Binary64 addition: exact rational addition followed by rounding. -/
def f64add (a b : ℚ) : ℚ := roundF64 (qadd a b)

/-- One row of the `hours` table. -/
structure Entry where
  entry_id : Nat
  date : Nat
  amount : ℚ
  deleted : Bool
deriving DecidableEq, Repr

/-- One row of the `undolog` table. -/
structure UndoRow where
  row_id : Nat
  entry_id : Nat
  deleted_old : Bool
  processed : Bool
deriving DecidableEq, Repr

/-- The persisted database: the `hours` table, the `undolog` table, and
the next auto-assigned primary keys of each. -/
structure DB where
  hours : List Entry
  undolog : List UndoRow
  nextId : Nat
  nextRow : Nat
deriving DecidableEq, Repr

def emptyDB : DB := { hours := [], undolog := [], nextId := 1, nextRow := 1 }

/-- Source `add`: `INSERT INTO hours (date, time, deleted) VALUES (?1, ?2, 0)`. -/
def add (db : DB) (date : Nat) (time : ℚ) : DB :=
  { db with
    hours := db.hours ++ [{ entry_id := db.nextId, date := date, amount := time, deleted := false }]
    nextId := db.nextId + 1 }

/-- Source `balance`: `SELECT TOTAL(time) FROM hours WHERE deleted = 0`.
`TOTAL` converts each stored text amount to a binary64 value and
accumulates with binary64 addition starting from `0.0`. -/
def balance (db : DB) : ℚ :=
  ((db.hours.filter (fun e => !e.deleted)).map (fun e => e.amount)).foldl
    (fun acc x => f64add acc (roundF64 x)) 0

/-- Exact decimal sum of the non-deleted amounts, the value the spec
says `balance` returns. -/
def exactBalance (db : DB) : ℚ :=
  ((db.hours.filter (fun e => !e.deleted)).map (fun e => e.amount)).sum

/-- One `UPDATE hours SET deleted = 1 WHERE <p>` statement together with
its undo-log trigger.  The `UPDATE` itself is translated from the source
(`delete_entry` / `delete_date` run one such statement per selector
element).  The trigger is not in `src/`.  Modelled from the spec: the
migrations directory holding the trigger SQL is absent, and the spec
states that for each row actually changed one undo record capturing the
row's prior `deleted` value is appended within the same transaction. -/
def updateDelete (db : DB) (p : Entry → Bool) : DB :=
  let changed := db.hours.filter (fun e => p e && !e.deleted)
  { db with
    hours := db.hours.map (fun e => if p e then { e with deleted := true } else e)
    undolog := db.undolog ++ ((List.range changed.length).zip changed).map
      (fun ke =>
        { row_id := db.nextRow + ke.1
          entry_id := ke.2.entry_id
          deleted_old := ke.2.deleted
          processed := false })
    nextRow := db.nextRow + changed.length }

/-- Source `delete_entry`: one `UPDATE ... WHERE entry_id = ?1` per id in
the selector set, all inside one transaction. -/
def delete_entry (db : DB) (ids : List Nat) : DB :=
  ids.foldl (fun d i => updateDelete d (fun e => e.entry_id == i)) db

/-- Source `delete_date`: one `UPDATE ... WHERE date = ?1` per date in
the selector set, all inside one transaction. -/
def delete_date (db : DB) (dates : List Nat) : DB :=
  dates.foldl (fun d x => updateDelete d (fun e => e.date == x)) db

/-- One row of the `tail_date` result set: a date and the stored amount. -/
abbrev Row := Nat × ℚ

/-- Relation ordering result rows by date descending, as `ORDER BY date
DESC` does (the stored `YYYY-MM-DD` strings sort lexicographically,
which is chronological order). -/
def dateDesc (a b : Row) : Prop := b.1 ≤ a.1

instance : DecidableRel dateDesc := fun a b => inferInstanceAs (Decidable (b.1 ≤ a.1))

instance : IsTotal Row dateDesc := ⟨fun a b => Nat.le_total b.1 a.1⟩

instance : IsTrans Row dateDesc := ⟨fun _ _ _ hab hbc => Nat.le_trans hbc hab⟩

/-- Result set of `SELECT date, time FROM hours WHERE deleted = 0 ORDER
BY date DESC` (the order of rows sharing a date is unspecified by SQL;
the model fixes the stable insertion-sort order). -/
def sortedRows (db : DB) : List Row :=
  List.insertionSort dateDesc ((db.hours.filter (fun e => !e.deleted)).map (fun e => (e.date, e.amount)))

/-- Loop of source `tail_date`: merge rows sharing the current date into
`time_sum` with binary64 addition; when the date changes, emit the
finished bucket, increment the bucket count and stop as soon as it
exceeds `n`; emit the open bucket when the rows run out. -/
def tailDateGo (n : Nat) : List Row → Nat → ℚ → Nat → List (Nat × ℚ)
  | [], d, s, _ => [(d, s)]
  | r :: rest, d, s, count =>
    if r.1 = d then tailDateGo n rest d (f64add s (roundF64 r.2)) count
    else if count + 1 > n then [(d, s)]
    else (d, s) :: tailDateGo n rest r.1 (roundF64 r.2) (count + 1)

/-- Source `tail_date`: read the rows date-descending, seed the first
bucket from the first row, then run the merge loop. -/
def tailDate (db : DB) (n : Nat) : List (Nat × ℚ) :=
  match sortedRows db with
  | [] => []
  | r :: rest => tailDateGo n rest r.1 (roundF64 r.2) 1

/-- Cutoff-free form of the `tail_date` merge loop. -/
def bucketsGo : List Row → Nat → ℚ → List (Nat × ℚ)
  | [], d, s => [(d, s)]
  | r :: rest, d, s =>
    if r.1 = d then bucketsGo rest d (f64add s (roundF64 r.2))
    else (d, s) :: bucketsGo rest r.1 (roundF64 r.2)

/-- All date buckets of a row list, with no truncation. -/
def buckets : List Row → List (Nat × ℚ)
  | [] => []
  | r :: rest => bucketsGo rest r.1 (roundF64 r.2)

/-- Binary64 sum of a group of amounts, seeded from the first one, the
way the `tail_date` loop accumulates `time_sum`. -/
def groupSum : List ℚ → ℚ
  | [] => 0
  | x :: xs => xs.foldl (fun a y => f64add a (roundF64 y)) (roundF64 x)

/-- First occurrence of each value, in order of first appearance. -/
def distinctFirst : List Nat → List Nat
  | [] => []
  | a :: l => a :: distinctFirst (l.filter (fun b => !(b == a)))
termination_by l => l.length
decreasing_by simpa using Nat.lt_succ_of_le (List.length_filter_le _ l)

/-- Specification-level rollup, following the spec text: non-deleted
entries grouped by exact date equality, summed per group, ordered by
date descending, truncated to the first `k` distinct dates encountered
in that order. -/
def specRollup (db : DB) (k : Nat) : List (Nat × ℚ) :=
  let rows := sortedRows db
  ((distinctFirst (rows.map Prod.fst)).take k).map
    (fun d => (d, groupSum ((rows.filter (fun r => decide (r.1 = d))).map Prod.snd)))

/-- Error taxonomy of the modelled commands. -/
inductive Err where
  | schemaMismatch
  | noSelector
deriving DecidableEq, Repr

/-- Relation ordering undo rows by `row_id` ascending. -/
def rowIdLe (a b : UndoRow) : Prop := a.row_id ≤ b.row_id

instance : DecidableRel rowIdLe := fun a b => inferInstanceAs (Decidable (a.row_id ≤ b.row_id))

instance : IsTotal UndoRow rowIdLe := ⟨fun a b => Nat.le_total a.row_id b.row_id⟩

instance : IsTrans UndoRow rowIdLe := ⟨fun _ _ _ hab hbc => Nat.le_trans hab hbc⟩

/-- Source `undo`: scans the undo log ordered by `row_id`, tracking a
`first_found` flag that is set when an unprocessed row is seen, and then
returns `Ok(())` without ever writing. -/
def undo (db : DB) (depth : Nat) : Except Err DB :=
  let rows := List.insertionSort rowIdLe db.undolog
  let first_found := rows.foldl (fun acc r => if r.processed = false then true else acc) false
  let _ := first_found
  let _ := depth
  Except.ok db

/-- Source `build.rs`: starting from `0`, take the largest leading
numeric id among the migration subdirectories; the result is wrapped in
`NonZeroUsize::new_unchecked`. -/
def latest_migration (ids : List Nat) : Nat :=
  ids.foldl (fun acc i => if i > acc then i else acc) 0

/-- Schema version as reported by the migration manager. -/
inductive SchemaVersion where
  | noneSet
  | inside (v : Nat)
  | outside (v : Nat)
deriving DecidableEq, Repr

/-- Source `DBSelectGroup`: exactly one of the two selectors is given by
the CLI, but the struct holds two options. -/
structure SelectGroup where
  entry : Option (List Nat)
  date : Option (List Nat)
deriving DecidableEq, Repr

/-- Source `Commands` enum. -/
inductive Commands where
  | migrateCmd
  | schemaCmd
  | addCmd (date : Nat) (time : ℚ)
  | deleteCmd (sel : SelectGroup)
  | tailCmd (n : Nat) (byNat : Bool)
  | balanceCmd
  | undoCmd (depth : Nat)
deriving DecidableEq, Repr

/-- Full persisted state: schema version plus database contents. -/
structure State where
  version : SchemaVersion
  db : DB
deriving DecidableEq, Repr

/-- Modelled from the spec: `migrate_to_latest` applies all pending
migrations of the migrations directory (absent from `src/`), leaving the
applied version equal to the latest known version. -/
def migrateTo (latest : Nat) (s : State) : State :=
  { s with version := SchemaVersion.inside latest }

/-- Source `delete`: dispatch on the selector group, erroring when
neither selector is present. -/
def deleteRun (db : DB) (g : SelectGroup) : Except Err DB :=
  match g.entry with
  | some ids => Except.ok (delete_entry db ids)
  | none =>
    match g.date with
    | some ds => Except.ok (delete_date db ds)
    | none => Except.error Err.noSelector

/-- Source `main`: handle `Migrate` and `Schema` first, then compare the
applied schema version with the latest known version and fail before
dispatching any ledger command when they differ. -/
def mainRun (latest : Nat) (s : State) (cmd : Commands) : Except Err State :=
  if cmd = Commands.migrateCmd then Except.ok (migrateTo latest s)
  else if cmd = Commands.schemaCmd then Except.ok s
  else if s.version ≠ SchemaVersion.inside latest then Except.error Err.schemaMismatch
  else
    match cmd with
    | Commands.addCmd d t => Except.ok { s with db := add s.db d t }
    | Commands.deleteCmd g => (deleteRun s.db g).map (fun db2 => { s with db := db2 })
    | Commands.tailCmd _ _ => Except.ok s
    | Commands.balanceCmd => Except.ok s
    | Commands.undoCmd depth => (undo s.db depth).map (fun db2 => { s with db := db2 })
    | Commands.migrateCmd => Except.ok s
    | Commands.schemaCmd => Except.ok s

theorem qadd_eq_add (a b : ℚ) : qadd a b = a + b := by
  rw [qadd]
  conv_rhs => rw [← Rat.num_divInt_den a, ← Rat.num_divInt_den b]
  rw [Rat.divInt_add_divInt _ _ (by exact_mod_cast a.den_nz) (by exact_mod_cast b.den_nz)]

/-- C8: the source `undo` only reads: for every database state and every
depth it returns success and leaves the entries table, the undo log and
all other persisted state unchanged. -/
theorem undo_performs_no_writes (db : DB) (depth : Nat) : undo db depth = Except.ok db := rfl

/-- Ledger holding one entry of `3.5` hours. -/
def dbBefore : DB := add emptyDB 20240101 (mkRat 7 2)

/-- The same ledger after `delete -e 1`: the entry is soft-deleted and
one unprocessed undo record exists. -/
def dbAfter : DB := delete_entry dbBefore [1]

/-- C1 (divergence witness): immediately after a soft delete, `undo 1`
returns the state unchanged: the entry stays deleted, the undo record
stays unprocessed, and the balance stays `0` instead of returning to
`3.5`. -/
theorem undo_after_delete_restores_nothing :
    undo dbAfter 1 = Except.ok dbAfter ∧
    dbAfter.hours.map (fun e => e.deleted) = [true] ∧
    dbAfter.undolog.map (fun r => r.processed) = [false] ∧
    exactBalance dbAfter = 0 ∧ exactBalance dbBefore = mkRat 7 2 := by
  refine ⟨rfl, by decide, by decide, by decide, ?_⟩
  simp [exactBalance, dbBefore, add, emptyDB]

/-- Ledger with one entry and an empty undo log: no unprocessed logical
operation exists. -/
def dbNoLog : DB := add emptyDB 20240102 (mkRat 1 2)

/-- C3 (divergence witness): with zero unprocessed logical operations in
the undo log, `undo` at any depth still returns success instead of
failing with `NothingToUndo`. -/
theorem undo_returns_ok_on_empty_log :
    dbNoLog.undolog = [] ∧ undo dbNoLog 1 = Except.ok dbNoLog ∧ undo dbNoLog 3 = Except.ok dbNoLog :=
  ⟨rfl, rfl, rfl⟩

/-- C10: the value passed to `NonZeroUsize::new_unchecked` is positive
exactly when some migration subdirectory has a positive leading numeric
id; with no subdirectories the fold returns `0`, breaking the `NonZero`
invariant. -/
theorem migrations_version_nonzero_iff (ids : List Nat) :
    (0 < latest_migration ids ↔ ∃ i ∈ ids, 0 < i) ∧ latest_migration [] = 0 := by
  constructor
  · rw [latest_migration]
    have key : ∀ (l : List Nat) (acc : Nat),
        0 < l.foldl (fun a i => if i > a then i else a) acc ↔ 0 < acc ∨ ∃ i ∈ l, 0 < i := by
      intro l
      induction l with
      | nil => intro acc; simp
      | cons x xs ih =>
        intro acc
        rw [List.foldl_cons, ih]
        simp only [List.mem_cons]
        constructor
        · rintro (hacc | ⟨i, hi, hpos⟩)
          · by_cases h : x > acc
            · rw [if_pos h] at hacc; exact Or.inr ⟨x, Or.inl rfl, hacc⟩
            · rw [if_neg h] at hacc; exact Or.inl hacc
          · exact Or.inr ⟨i, Or.inr hi, hpos⟩
        · rintro (hacc | ⟨i, (rfl | hi), hpos⟩)
          · left; split <;> omega
          · left; split <;> omega
          · exact Or.inr ⟨i, hi, hpos⟩
    rw [key]
    simp
  · rfl

/-- C6: for every command other than `migrate` and `schema`, and every
state whose applied schema version is not exactly the latest known
version, `main` fails with the schema-mismatch error before dispatching
to any ledger operation. -/
theorem gate_rejects_schema_mismatch (latest : Nat) (s : State) (cmd : Commands)
    (h1 : cmd ≠ Commands.migrateCmd) (h2 : cmd ≠ Commands.schemaCmd)
    (h3 : s.version ≠ SchemaVersion.inside latest) :
    mainRun latest s cmd = Except.error Err.schemaMismatch := by
  rw [mainRun.eq_def, if_neg h1, if_neg h2, if_pos h3]

theorem gate_rejects_schema_mismatch_witness :
    Commands.balanceCmd ≠ Commands.migrateCmd ∧
    Commands.balanceCmd ≠ Commands.schemaCmd ∧
    (State.mk SchemaVersion.noneSet emptyDB).version ≠ SchemaVersion.inside 1 ∧
    mainRun 1 (State.mk SchemaVersion.noneSet emptyDB) Commands.balanceCmd
      = Except.error Err.schemaMismatch :=
  ⟨by decide, by decide, by decide,
    gate_rejects_schema_mismatch 1 (State.mk SchemaVersion.noneSet emptyDB) Commands.balanceCmd
      (by decide) (by decide) (by decide)⟩

theorem any_beq_eq_decide_mem (a : Nat) (l : List Nat) :
    (l.any fun i => a == i) = decide (a ∈ l) := by
  induction l with
  | nil => rfl
  | cons x xs ih => by_cases h : a = x <;> simp [List.any_cons, ih, h, List.mem_cons]

theorem foldl_updateDelete_hours {α : Type} (f : α → Entry → Bool) :
    ∀ (xs : List α) (db : DB),
      (xs.foldl (fun d x => updateDelete d (f x)) db).hours
        = db.hours.map
            (fun e => if xs.any (fun x => f x e) then { e with deleted := true } else e) := by
  intro xs
  induction xs with
  | nil => intro db; simp
  | cons x xs ih =>
    intro db
    rw [List.foldl_cons, ih]
    have hh : (updateDelete db (f x)).hours
        = db.hours.map (fun e => if f x e then { e with deleted := true } else e) := rfl
    rw [hh, List.map_map]
    apply List.map_congr_left
    intro e _
    rcases e with ⟨eid, ed, ea, edel⟩
    by_cases hx : f x ⟨eid, ed, ea, edel⟩ = true <;>
      simp [Function.comp, hx, List.any_cons]

theorem delete_entry_hours (db : DB) (ids : List Nat) :
    (delete_entry db ids).hours
      = db.hours.map (fun e => if e.entry_id ∈ ids then { e with deleted := true } else e) := by
  rw [delete_entry, foldl_updateDelete_hours (fun i e => e.entry_id == i)]
  apply List.map_congr_left
  intro e _
  rw [any_beq_eq_decide_mem]
  by_cases h : e.entry_id ∈ ids <;> simp [h]

theorem delete_date_hours (db : DB) (dates : List Nat) :
    (delete_date db dates).hours
      = db.hours.map (fun e => if e.date ∈ dates then { e with deleted := true } else e) := by
  rw [delete_date, foldl_updateDelete_hours (fun x e => e.date == x)]
  apply List.map_congr_left
  intro e _
  rw [any_beq_eq_decide_mem]
  by_cases h : e.date ∈ dates <;> simp [h]

/-- C7: soft delete by ids or by dates is one transition that returns
success and marks exactly the matched rows deleted; selectors matching
no row (or only already-deleted rows) still succeed. -/
theorem delete_atomic_marks_matched (db : DB) (ids : List Nat) (dates : List Nat) :
    (deleteRun db ⟨some ids, none⟩ = Except.ok (delete_entry db ids) ∧
      (delete_entry db ids).hours
        = db.hours.map (fun e => if e.entry_id ∈ ids then { e with deleted := true } else e)) ∧
    (deleteRun db ⟨none, some dates⟩ = Except.ok (delete_date db dates) ∧
      (delete_date db dates).hours
        = db.hours.map (fun e => if e.date ∈ dates then { e with deleted := true } else e)) :=
  ⟨⟨rfl, delete_entry_hours db ids⟩, ⟨rfl, delete_date_hours db dates⟩⟩

/-- C9: entries whose id (resp. date) is not in the selector set are
bit-for-bit unchanged by a soft delete. -/
theorem delete_frames_unmatched (db : DB) (ids : List Nat) (dates : List Nat)
    (i : Nat) (d0 : Entry) :
    ((db.hours.getD i d0).entry_id ∉ ids →
      (delete_entry db ids).hours.getD i d0 = db.hours.getD i d0) ∧
    ((db.hours.getD i d0).date ∉ dates →
      (delete_date db dates).hours.getD i d0 = db.hours.getD i d0) := by
  constructor
  · intro h
    rw [delete_entry_hours, List.getD_eq_getElem?_getD, List.getElem?_map,
      List.getD_eq_getElem?_getD]
    cases hq : db.hours[i]? with
    | none => rfl
    | some e =>
      have he : db.hours.getD i d0 = e := by rw [List.getD_eq_getElem?_getD, hq]; rfl
      rw [he] at h
      simp [if_neg h]
  · intro h
    rw [delete_date_hours, List.getD_eq_getElem?_getD, List.getElem?_map,
      List.getD_eq_getElem?_getD]
    cases hq : db.hours[i]? with
    | none => rfl
    | some e =>
      have he : db.hours.getD i d0 = e := by rw [List.getD_eq_getElem?_getD, hq]; rfl
      rw [he] at h
      simp [if_neg h]

/-- Two-entry ledger used as the frame-condition witness. -/
def dbW : DB :=
  { hours := [⟨1, 10, 1, false⟩, ⟨2, 11, 2, false⟩], undolog := [], nextId := 3, nextRow := 1 }

/-- Default entry for `getD` in the witnesses. -/
def entryDefault : Entry := ⟨0, 0, 0, false⟩

theorem delete_frames_unmatched_witness :
    ((dbW.hours.getD 1 entryDefault).entry_id ∉ [1] ∧
      (delete_entry dbW [1]).hours.getD 1 entryDefault = dbW.hours.getD 1 entryDefault) ∧
    ((dbW.hours.getD 1 entryDefault).date ∉ [10] ∧
      (delete_date dbW [10]).hours.getD 1 entryDefault = dbW.hours.getD 1 entryDefault) :=
  ⟨⟨by decide, (delete_frames_unmatched dbW [1] [10] 1 entryDefault).1 (by decide)⟩,
   ⟨by decide, (delete_frames_unmatched dbW [1] [10] 1 entryDefault).2 (by decide)⟩⟩

theorem length_filter_orand {α : Type} (p a d : α → Bool) (l : List α) :
    (l.filter (fun e => (p e || a e) && d e)).length
      = (l.filter (fun e => p e && d e)).length
        + (l.filter (fun e => !(p e) && (a e && d e))).length := by
  induction l with
  | nil => rfl
  | cons e l ih =>
    by_cases hp : p e = true <;> by_cases ha : a e = true <;> by_cases hd : d e = true <;>
      simp [List.filter_cons, hp, ha, hd, ih] <;> omega

theorem foldl_updateDelete_undolog {α : Type} (f : α → Entry → Bool) :
    ∀ (xs : List α) (db : DB), ∃ recs : List UndoRow,
      (xs.foldl (fun d x => updateDelete d (f x)) db).undolog = db.undolog ++ recs ∧
      recs.length = (db.hours.filter (fun e => xs.any (fun x => f x e) && !e.deleted)).length ∧
      ∀ r ∈ recs, r.deleted_old = false ∧ r.processed = false := by
  intro xs
  induction xs with
  | nil =>
    intro db
    refine ⟨[], by simp, ?_, by simp⟩
    simp
  | cons x xs ih =>
    intro db
    obtain ⟨recs1, h1, hlen1, hprop1⟩ := ih (updateDelete db (f x))
    have hu : (updateDelete db (f x)).undolog
        = db.undolog ++ ((List.range (db.hours.filter (fun e => f x e && !e.deleted)).length).zip
            (db.hours.filter (fun e => f x e && !e.deleted))).map
            (fun ke => { row_id := db.nextRow + ke.1, entry_id := ke.2.entry_id,
                         deleted_old := ke.2.deleted, processed := false }) := rfl
    have hh : (updateDelete db (f x)).hours
        = db.hours.map (fun e => if f x e then { e with deleted := true } else e) := rfl
    refine ⟨(((List.range (db.hours.filter (fun e => f x e && !e.deleted)).length).zip
        (db.hours.filter (fun e => f x e && !e.deleted))).map
        (fun ke => ({ row_id := db.nextRow + ke.1, entry_id := ke.2.entry_id,
                      deleted_old := ke.2.deleted, processed := false } : UndoRow))) ++ recs1,
      ?_, ?_, ?_⟩
    · rw [List.foldl_cons, h1, hu, List.append_assoc]
    · rw [List.length_append]
      have hrecs0len :
          (((List.range (db.hours.filter (fun e => f x e && !e.deleted)).length).zip
            (db.hours.filter (fun e => f x e && !e.deleted))).map
            (fun ke => ({ row_id := db.nextRow + ke.1, entry_id := ke.2.entry_id,
                          deleted_old := ke.2.deleted, processed := false } : UndoRow))).length
            = (db.hours.filter (fun e => f x e && !e.deleted)).length := by
        simp [List.length_zip]
      rw [hrecs0len]
      rw [hh] at hlen1
      rw [List.filter_map, List.length_map] at hlen1
      have hcongr : db.hours.filter
            ((fun e => xs.any (fun y => f y e) && !e.deleted)
              ∘ (fun e => if f x e then { e with deleted := true } else e))
          = db.hours.filter (fun e => !(f x e) && (xs.any (fun y => f y e) && !e.deleted)) := by
        apply List.filter_congr
        intro e _
        rcases e with ⟨eid, ed, ea, edel⟩
        by_cases hx : f x ⟨eid, ed, ea, edel⟩ = true <;>
          simp [Function.comp, hx]
      rw [hcongr] at hlen1
      rw [hlen1]
      have : (fun e : Entry => (x :: xs).any (fun y => f y e) && !e.deleted)
          = fun e => (f x e || xs.any (fun y => f y e)) && !e.deleted := by
        funext e
        rw [List.any_cons]
      rw [this, length_filter_orand]
    · intro r hr
      rcases List.mem_append.mp hr with hl | hrr
      · obtain ⟨ke, hke, rfl⟩ := List.mem_map.mp hl
        have he := (List.of_mem_zip hke).2
        have := (List.mem_filter.mp he).2
        rw [Bool.and_eq_true] at this
        refine ⟨?_, rfl⟩
        have : ke.2.deleted = false := by
          rcases this with ⟨_, h2⟩
          simpa using h2
        exact this
      · exact hprop1 r hrr

/-- C2: one application of soft delete (by ids, resp. by dates) both
marks the matched rows and appends to the undo log, in a single
transition, exactly one record per row whose `deleted` flag actually
changed; each appended record stores the row's prior `deleted` value
(`false`, since only non-deleted rows change) and is unprocessed. -/
theorem delete_appends_undo_records (db : DB) (ids : List Nat) (dates : List Nat) :
    (∃ recs : List UndoRow,
      (delete_entry db ids).undolog = db.undolog ++ recs ∧
      recs.length
        = (db.hours.filter (fun e => decide (e.entry_id ∈ ids) && !e.deleted)).length ∧
      (∀ r ∈ recs, r.deleted_old = false ∧ r.processed = false) ∧
      (delete_entry db ids).hours
        = db.hours.map (fun e => if e.entry_id ∈ ids then { e with deleted := true } else e)) ∧
    (∃ recs : List UndoRow,
      (delete_date db dates).undolog = db.undolog ++ recs ∧
      recs.length
        = (db.hours.filter (fun e => decide (e.date ∈ dates) && !e.deleted)).length ∧
      (∀ r ∈ recs, r.deleted_old = false ∧ r.processed = false) ∧
      (delete_date db dates).hours
        = db.hours.map (fun e => if e.date ∈ dates then { e with deleted := true } else e)) := by
  constructor
  · obtain ⟨recs, h1, h2, h3⟩ :=
      foldl_updateDelete_undolog (fun i e => e.entry_id == i) ids db
    refine ⟨recs, h1, ?_, h3, delete_entry_hours db ids⟩
    rw [h2]
    congr 1
    apply List.filter_congr
    intro e _
    rw [any_beq_eq_decide_mem]
  · obtain ⟨recs, h1, h2, h3⟩ :=
      foldl_updateDelete_undolog (fun x e => e.date == x) dates db
    refine ⟨recs, h1, ?_, h3, delete_date_hours db dates⟩
    rw [h2]
    congr 1
    apply List.filter_congr
    intro e _
    rw [any_beq_eq_decide_mem]

/-- Check that every amount of the list and every running exact sum
(started from `acc`) is exactly representable in binary64. -/
def sumsReprB : ℚ → List ℚ → Bool
  | _, [] => true
  | acc, x :: xs =>
    decide (roundF64 x = x) && decide (roundF64 (qadd acc x) = qadd acc x)
      && sumsReprB (qadd acc x) xs

theorem foldl_f64add_eq_sum (xs : List ℚ) :
    ∀ acc : ℚ, roundF64 acc = acc → sumsReprB acc xs = true →
      xs.foldl (fun a x => f64add a (roundF64 x)) acc = acc + xs.sum := by
  induction xs with
  | nil => intro acc _ _; simp
  | cons x xs ih =>
    intro acc hacc hrep
    rw [sumsReprB] at hrep
    rw [Bool.and_eq_true, Bool.and_eq_true] at hrep
    obtain ⟨⟨hx, hax⟩, hrest⟩ := hrep
    rw [decide_eq_true_eq] at hx hax
    rw [List.foldl_cons]
    have hstep : f64add acc (roundF64 x) = acc + x := by
      rw [f64add, hx, hax, qadd_eq_add]
    have hreprNext : roundF64 (acc + x) = acc + x := by rw [← qadd_eq_add]; exact hax
    have hrestNext : sumsReprB (acc + x) xs = true := by rw [← qadd_eq_add]; exact hrest
    rw [hstep, ih (acc + x) hreprNext hrestNext, List.sum_cons]
    ring

/-- C4 (amended): when every amount and every running sum is exactly
representable in binary64, `balance` agrees with the exact decimal sum;
with no non-deleted entries it returns exactly `0`. -/
theorem balance_eq_exact_of_representable (db : DB)
    (h : sumsReprB 0 ((db.hours.filter (fun e => !e.deleted)).map (fun e => e.amount)) = true) :
    balance db = exactBalance db ∧ balance emptyDB = 0 := by
  constructor
  · rw [balance, exactBalance, foldl_f64add_eq_sum _ 0 (by decide) h, zero_add]
  · rfl

/-- Ledger with two binary64-representable amounts `1.5` and `2.25`. -/
def dbRepr : DB := add (add emptyDB 1 (mkRat 3 2)) 2 (mkRat 9 4)

theorem balance_eq_exact_witness :
    sumsReprB 0 ((dbRepr.hours.filter (fun e => !e.deleted)).map (fun e => e.amount)) = true ∧
    (balance dbRepr = exactBalance dbRepr ∧ balance emptyDB = 0) :=
  ⟨by decide, balance_eq_exact_of_representable dbRepr (by decide)⟩

/-- Ledger holding a single `0.1`-hour entry, which no binary64 value
represents exactly. -/
def dbTenth : DB := add emptyDB 20240101 (mkRat 1 10)

/-- C4 (counterexample): after a single `add` of `0.1`, the value
computed by `balance` differs from the exact decimal sum of the
non-deleted amounts. -/
theorem balance_not_exact_on_tenth :
    balance dbTenth ≠ exactBalance dbTenth ∧ exactBalance dbTenth = mkRat 1 10 := by
  have hex : exactBalance dbTenth = mkRat 1 10 := by
    simp [exactBalance, dbTenth, add, emptyDB]
  exact ⟨by rw [hex]; decide, hex⟩

theorem bucketsGo_run_split (d : Nat) :
    ∀ (l : List Row) (s : ℚ),
      bucketsGo l d s
        = (d, (l.takeWhile (fun r => decide (r.1 = d))).foldl
              (fun a r => f64add a (roundF64 r.2)) s)
          :: buckets (l.dropWhile (fun r => decide (r.1 = d))) := by
  intro l
  induction l with
  | nil => intro s; rfl
  | cons r rest ih =>
    intro s
    by_cases h : r.1 = d
    · rw [bucketsGo, if_pos h, List.takeWhile_cons, List.dropWhile_cons,
        if_pos (by simpa using h), if_pos (by simpa using h), List.foldl_cons]
      exact ih (f64add s (roundF64 r.2))
    · rw [bucketsGo, if_neg h, List.takeWhile_cons, List.dropWhile_cons,
        if_neg (by simpa using h), if_neg (by simpa using h), List.foldl_nil]
      rfl

theorem sorted_run_filter (d : Nat) :
    ∀ l : List Row, l.Pairwise dateDesc → (∀ e ∈ l, e.1 ≤ d) →
      l.filter (fun r => decide (r.1 = d)) = l.takeWhile (fun r => decide (r.1 = d)) ∧
      ∀ e ∈ l.dropWhile (fun r => decide (r.1 = d)), e.1 < d := by
  intro l
  induction l with
  | nil => intro _ _; exact ⟨rfl, by simp⟩
  | cons r rest ih =>
    intro hsort hle
    rw [List.pairwise_cons] at hsort
    obtain ⟨hhead, htail⟩ := hsort
    by_cases h : r.1 = d
    · obtain ⟨h1, h2⟩ := ih htail (fun e he => hle e (List.mem_cons_of_mem r he))
      constructor
      · rw [List.filter_cons, List.takeWhile_cons, if_pos (by simpa using h),
          if_pos (by simpa using h), h1]
      · rw [List.dropWhile_cons, if_pos (by simpa using h)]
        exact h2
    · have hrd : r.1 < d := lt_of_le_of_ne (hle r (List.mem_cons_self r rest)) h
      constructor
      · rw [List.filter_cons, List.takeWhile_cons, if_neg (by simpa using h),
          if_neg (by simpa using h)]
        rw [List.filter_eq_nil_iff]
        intro e he
        have h1 : e.1 ≤ r.1 := hhead e he
        show ¬ decide (e.1 = d) = true
        simp only [decide_eq_true_eq]
        omega
      · rw [List.dropWhile_cons, if_neg (by simpa using h)]
        intro e he
        rcases List.mem_cons.mp he with rfl | he'
        · exact hrd
        · have h1 : e.1 ≤ r.1 := hhead e he'
          show e.1 < d
          omega

theorem mem_distinctFirst (a : Nat) :
    ∀ (n : Nat) (l : List Nat), l.length ≤ n → a ∈ distinctFirst l → a ∈ l := by
  intro n
  induction n with
  | zero =>
    intro l hl ha
    rw [Nat.le_zero, List.length_eq_zero] at hl
    subst hl
    simp [distinctFirst] at ha
  | succ n ih =>
    intro l hl ha
    cases l with
    | nil => simp [distinctFirst] at ha
    | cons b t =>
      rw [distinctFirst] at ha
      rcases List.mem_cons.mp ha with rfl | ha'
      · exact List.mem_cons_self a t
      · have hlen : (t.filter (fun x => !(x == b))).length ≤ n :=
          Nat.le_trans (List.length_filter_le _ t) (Nat.le_of_succ_le_succ hl)
        have := ih _ hlen ha'
        exact List.mem_cons_of_mem b (List.mem_of_mem_filter this)

theorem distinctFirst_pairwise_gt :
    ∀ (n : Nat) (l : List Nat), l.length ≤ n → l.Pairwise (fun a b => b ≤ a) →
      (distinctFirst l).Pairwise (fun a b => b < a) := by
  intro n
  induction n with
  | zero =>
    intro l hl _
    rw [Nat.le_zero, List.length_eq_zero] at hl
    subst hl
    simp [distinctFirst]
  | succ n ih =>
    intro l hl hsort
    cases l with
    | nil => simp [distinctFirst]
    | cons b t =>
      rw [distinctFirst, List.pairwise_cons]
      rw [List.pairwise_cons] at hsort
      obtain ⟨hhead, htail⟩ := hsort
      have hlen : (t.filter (fun x => !(x == b))).length ≤ n :=
        Nat.le_trans (List.length_filter_le _ t) (Nat.le_of_succ_le_succ hl)
      constructor
      · intro c hc
        have hcmem := mem_distinctFirst c _ _ hlen hc
        have hct := List.mem_of_mem_filter hcmem
        have hne : ¬(c == b) = true := by
          have := (List.mem_filter.mp hcmem).2
          simpa using this
        have hcb : c ≤ b := hhead c hct
        have hne2 : c ≠ b := by simpa using hne
        show c < b
        omega
      · exact ih _ hlen (List.Pairwise.filter _ htail)

theorem buckets_eq_spec :
    ∀ (n : Nat) (l : List Row), l.length ≤ n → l.Pairwise dateDesc →
      buckets l = (distinctFirst (l.map Prod.fst)).map
        (fun d => (d, groupSum ((l.filter (fun r => decide (r.1 = d))).map Prod.snd))) := by
  intro n
  induction n with
  | zero =>
    intro l hl _
    rw [Nat.le_zero, List.length_eq_zero] at hl
    subst hl
    simp [buckets, distinctFirst]
  | succ n ih =>
    intro l hl hsort
    cases l with
    | nil => simp [buckets, distinctFirst]
    | cons r rest =>
      rw [List.pairwise_cons] at hsort
      obtain ⟨hhead, htail⟩ := hsort
      have hle : ∀ e ∈ rest, e.1 ≤ r.1 := fun e he => hhead e he
      obtain ⟨hfilter, hdropLt⟩ := sorted_run_filter r.1 rest htail hle
      have hsplit : rest
          = rest.takeWhile (fun x => decide (x.1 = r.1))
            ++ rest.dropWhile (fun x => decide (x.1 = r.1)) :=
        (List.takeWhile_append_dropWhile _ _).symm
      have hdpLen : (rest.dropWhile (fun x => decide (x.1 = r.1))).length ≤ n :=
        Nat.le_trans ((List.dropWhile_sublist _).length_le)
          (Nat.le_of_succ_le_succ hl)
      have hdpSorted : (rest.dropWhile (fun x => decide (x.1 = r.1))).Pairwise dateDesc :=
        List.Pairwise.sublist (List.dropWhile_sublist _) htail
      have hA : (rest.map Prod.fst).filter (fun b => !(b == r.1))
          = (rest.dropWhile (fun x => decide (x.1 = r.1))).map Prod.fst := by
        conv_lhs => rw [hsplit]
        rw [List.map_append, List.filter_append]
        have h1 : ((rest.takeWhile (fun x => decide (x.1 = r.1))).map Prod.fst).filter
            (fun b => !(b == r.1)) = [] := by
          rw [List.filter_eq_nil_iff]
          intro a ha
          obtain ⟨x, hx, rfl⟩ := List.mem_map.mp ha
          have hx1 := List.mem_takeWhile_imp hx
          simp only [decide_eq_true_eq] at hx1
          simp [hx1]
        have h2 : ((rest.dropWhile (fun x => decide (x.1 = r.1))).map Prod.fst).filter
            (fun b => !(b == r.1))
            = (rest.dropWhile (fun x => decide (x.1 = r.1))).map Prod.fst := by
          rw [List.filter_eq_self]
          intro a ha
          obtain ⟨x, hx, rfl⟩ := List.mem_map.mp ha
          have hlt := hdropLt x hx
          simp only [Bool.not_eq_true']
          simp only [beq_eq_false_iff_ne, ne_eq]
          omega
        rw [h1, h2, List.nil_append]
      have hdLt : ∀ d ∈ distinctFirst
          ((rest.dropWhile (fun x => decide (x.1 = r.1))).map Prod.fst), d < r.1 := by
        intro d hd
        have hmem := mem_distinctFirst d
          ((rest.dropWhile (fun x => decide (x.1 = r.1))).map Prod.fst).length _ le_rfl hd
        obtain ⟨x, hx, rfl⟩ := List.mem_map.mp hmem
        exact hdropLt x hx
      have hfilterd : ∀ d : Nat, d < r.1 →
          (r :: rest).filter (fun x => decide (x.1 = d))
            = (rest.dropWhile (fun x => decide (x.1 = r.1))).filter
                (fun x => decide (x.1 = d)) := by
        intro d hd
        rw [List.filter_cons, if_neg (by simp only [decide_eq_true_eq]; omega)]
        conv_lhs => rw [hsplit]
        rw [List.filter_append]
        have h1 : (rest.takeWhile (fun x => decide (x.1 = r.1))).filter
            (fun x => decide (x.1 = d)) = [] := by
          rw [List.filter_eq_nil_iff]
          intro x hx
          have hx1 := List.mem_takeWhile_imp hx
          simp only [decide_eq_true_eq] at hx1 ⊢
          omega
        rw [h1, List.nil_append]
      rw [buckets, bucketsGo_run_split r.1 rest (roundF64 r.2)]
      rw [List.map_cons, distinctFirst, hA, List.map_cons]
      rw [ih _ hdpLen hdpSorted]
      have hheadeq : ((r :: rest).filter (fun x => decide (x.1 = r.1))).map Prod.snd
          = r.2 :: (rest.takeWhile (fun x => decide (x.1 = r.1))).map Prod.snd := by
        rw [List.filter_cons, if_pos (by simp), hfilter, List.map_cons]
      rw [hheadeq]
      congr 1
      · rw [groupSum, List.foldl_map]
      · apply List.map_congr_left
        intro d hd
        rw [hfilterd d (hdLt d hd)]

theorem tailDateGo_take (n : Nat) :
    ∀ (l : List Row) (d : Nat) (s : ℚ) (c : Nat), 1 ≤ c →
      tailDateGo n l d s c = (bucketsGo l d s).take (max 1 n - c + 1) := by
  intro l
  induction l with
  | nil =>
    intro d s c _
    rw [tailDateGo, bucketsGo]
    simp
  | cons r rest ih =>
    intro d s c hc
    by_cases h : r.1 = d
    · rw [tailDateGo, bucketsGo, if_pos h, if_pos h]
      exact ih d (f64add s (roundF64 r.2)) c hc
    · rw [tailDateGo, bucketsGo, if_neg h, if_neg h]
      by_cases hcn : c + 1 > n
      · rw [if_pos hcn]
        have hz : max 1 n - c = 0 := by omega
        have : max 1 n - c + 1 = 1 := by omega
        rw [this]
        rfl
      · rw [if_neg hcn]
        have hstep : max 1 n - c + 1 = (max 1 n - (c + 1) + 1) + 1 := by omega
        rw [hstep, List.take_succ_cons]
        congr 1
        exact ih r.1 (roundF64 r.2) (c + 1) (by omega)

theorem sortedRows_sorted (db : DB) : (sortedRows db).Pairwise dateDesc :=
  List.sorted_insertionSort dateDesc _

theorem tailDate_take_buckets (db : DB) (n : Nat) :
    tailDate db n = (buckets (sortedRows db)).take (max 1 n) := by
  cases hs : sortedRows db with
  | nil =>
    rw [tailDate, hs, buckets, List.take_nil]
  | cons r rest =>
    rw [tailDate, hs, buckets]
    show tailDateGo n rest r.1 (roundF64 r.2) 1 = _
    rw [tailDateGo_take n rest r.1 (roundF64 r.2) 1 le_rfl]
    congr 1
    omega

/-- C5 (amended): `tail_date` computes exactly the spec-level rollup —
non-deleted entries grouped by exact date equality, per-group binary64
sums, strictly descending dates with no duplicate bucket — truncated to
the first `max 1 n` distinct dates: at most `n` buckets for `n ≥ 1`,
but one bucket (not zero) when `n = 0` and a non-deleted entry exists. -/
theorem tailDate_eq_specRollup (db : DB) (n : Nat) :
    tailDate db n = specRollup db (max 1 n) ∧
    ((tailDate db n).map Prod.fst).Pairwise (fun a b => b < a) := by
  have hsorted := sortedRows_sorted db
  have hmain : tailDate db n = specRollup db (max 1 n) := by
    rw [tailDate_take_buckets, specRollup]
    rw [buckets_eq_spec (sortedRows db).length (sortedRows db) le_rfl hsorted]
    rw [← List.map_take]
  refine ⟨hmain, ?_⟩
  rw [hmain, specRollup]
  have hproj : (((distinctFirst ((sortedRows db).map Prod.fst)).take (max 1 n)).map
      (fun d => (d, groupSum (((sortedRows db).filter
        (fun r => decide (r.1 = d))).map Prod.snd)))).map Prod.fst
      = (distinctFirst ((sortedRows db).map Prod.fst)).take (max 1 n) := by
    rw [List.map_map]
    exact List.map_id _
  rw [hproj]
  have hdates : ((sortedRows db).map Prod.fst).Pairwise (fun a b : Nat => b ≤ a) :=
    List.Pairwise.map Prod.fst (fun a b hab => hab) hsorted
  have hgt := distinctFirst_pairwise_gt ((sortedRows db).map Prod.fst).length _ le_rfl hdates
  exact List.Pairwise.sublist (List.take_sublist _ _) hgt

/-- Ledger with one non-deleted entry dated `5`. -/
def dbOne : DB := add emptyDB 5 1

/-- C5 (counterexample): with `limit = 0`, `tail_date` still outputs one
bucket instead of none. -/
theorem tailDate_limit_zero_outputs_bucket :
    tailDate dbOne 0 = [(5, 1)] ∧ tailDate dbOne 0 ≠ [] :=
  ⟨by decide, by decide⟩

end Kouhia
